import Mathlib

/-!
Shallow embedding of two AMDGPU scheduling-DAG mutation passes:

* `AMDGPUCustomInterleaving.cpp` — the GEMM hot-loop interleave mutation
  (`identifyGEMMHotLoop`, `CustomInterleaving::apply`);
* `AMDGPUDSReadClustering.cpp` — the LDS-read clustering record collection
  (`DSReadClustering::collectMemOpRecords`);
* `ScheduleDAGMutation.h` — the shared memory-operation record and its
  comparator (`BaseMemOpClusterMutation::MemOpInfo::operator<`).

Machine instructions are modelled as records of the predicates the passes
query (`mayLoad`, `mayStore`, format flags, opcode, and the optional
base-address decomposition returned by `getMemOperandsWithOffsetWidth`).
Scheduling units carry their instruction and their `NodeNum` sequence number.
The dependency graph carries the ordered unit list, the exit unit's
instruction, and an edge list; mutations only append edges.
-/

/-- A machine operation, reduced to the queries the two passes make of it.
`baseAddr` models the target query `getMemOperandsWithOffsetWidth`:
`some (baseOps, offset, width)` when the address decomposes as base+offset,
`none` otherwise.  Operand handles are opaque integers. -/
structure Op where
  mayLoad : Bool
  mayStore : Bool
  isDS : Bool
  isVMEM : Bool
  isMAI : Bool
  isInlineAsm : Bool
  opcode : Nat
  baseAddr : Option (List Int × Int × Nat)
deriving DecidableEq

/-- Opcode constant standing for `AMDGPU::S_CBRANCH_SCC1`. -/
def S_CBRANCH_SCC1 : Nat := 1

/-- A scheduling unit (`SUnit`): sequence number plus its instruction.
`instr = none` models a unit whose `getInstr()` is null (e.g. a boundary
unit); the source dereferences the instruction pointer unconditionally in
its predicates, so a unit without an instruction can match none of them. -/
structure SUnit where
  nodeNum : Nat
  instr : Option Op
deriving DecidableEq

/-- `SUnit::isInstr()`: the unit wraps an instruction. -/
def SUnit.isInstr (su : SUnit) : Bool := su.instr.isSome

/-- Dependency-edge kinds relevant to the passes.  `Data` and `Order` are
pre-existing authoritative kinds; `Cluster` and `Artificial` are the advisory
kinds the mutations add. -/
inductive DepKind
  | Data
  | Order
  | Cluster
  | Artificial
deriving DecidableEq

/-- A directed dependency edge: the successor `dst` depends on the
predecessor `src` (`DAG->addEdge(SuccSU, SDep(PredSU, kind))`). -/
structure Edge where
  src : Nat
  dst : Nat
  kind : DepKind
deriving DecidableEq

/-- The scheduling DAG as the passes see it: ordered unit list, the exit
unit's instruction (`ExitSU.getInstr()`, possibly null), and the edge list. -/
structure DAG where
  SUnits : List SUnit
  exitInstr : Option Op
  edges : List Edge
deriving DecidableEq

/-! ### Category predicates (AMDGPUCustomInterleaving.cpp, lines 29-56) -/

/-- `isDSRead`: an LDS instruction that may load. -/
def isDSRead (su : SUnit) : Bool :=
  match su.instr with
  | some mi => mi.isDS && mi.mayLoad
  | none => false

/-- `isDSWrite`: an LDS instruction that may store. -/
def isDSWrite (su : SUnit) : Bool :=
  match su.instr with
  | some mi => mi.isDS && mi.mayStore
  | none => false

/-- `isMFMA`: a long-latency matrix compute (MAI) instruction. -/
def isMFMA (su : SUnit) : Bool :=
  match su.instr with
  | some mi => mi.isMAI
  | none => false

/-- `isVMEMLoad`: a vector-memory instruction that may load. -/
def isVMEMLoad (su : SUnit) : Bool :=
  match su.instr with
  | some mi => mi.isVMEM && mi.mayLoad
  | none => false

/-- `isVMEMStore`: a vector-memory instruction that may store. -/
def isVMEMStore (su : SUnit) : Bool :=
  match su.instr with
  | some mi => mi.isVMEM && mi.mayStore
  | none => false

/-- `isInlineAsm`: an inline-assembly marker. -/
def isInlineAsm (su : SUnit) : Bool :=
  match su.instr with
  | some mi => mi.isInlineAsm
  | none => false

/-- `identifyGEMMHotLoop` (lines 63-84).  The source reads `DAG->SUnits[0]`
without a bounds check, so the result is undefined (`none`) exactly on an
empty region; otherwise it mirrors the two-flag shape check: the first unit
is an inline-asm marker or a VMEM load, and the exit unit's instruction is
an `S_CBRANCH_SCC1`. -/
def identifyGEMMHotLoop (dag : DAG) : Option Bool :=
  match dag.SUnits.get? 0 with
  | none => none
  | some su =>
    let gotBegin := su.isInstr && (isInlineAsm su || isVMEMLoad su)
    let gotEnd := gotBegin &&
      (match dag.exitInstr with
       | some mi => mi.opcode == S_CBRANCH_SCC1
       | none => false)
    some (gotBegin && gotEnd)

/-! ### Classification loop (lines 98-135) -/

/-- The five category lists built by the classification loop.  The source
also keeps per-category counters; they always equal the list lengths, so
only the lists are carried. -/
structure Classified where
  DSReads : List SUnit
  DSWrites : List SUnit
  VMEMLoads : List SUnit
  VMEMStores : List SUnit
  MFMAs : List SUnit
deriving DecidableEq

/-- One iteration of the classification loop: the first matching branch of
the else-if chain appends the unit to its category list. -/
def classifyStep (acc : Classified) (su : SUnit) : Classified :=
  if isDSRead su then { acc with DSReads := acc.DSReads ++ [su] }
  else if isDSWrite su then { acc with DSWrites := acc.DSWrites ++ [su] }
  else if isMFMA su then { acc with MFMAs := acc.MFMAs ++ [su] }
  else if isVMEMLoad su then { acc with VMEMLoads := acc.VMEMLoads ++ [su] }
  else if isVMEMStore su then { acc with VMEMStores := acc.VMEMStores ++ [su] }
  else acc

/-- The classification loop over the region's units. -/
def classifySUnits (sus : List SUnit) : Classified :=
  sus.foldl classifyStep ⟨[], [], [], [], []⟩

/-! ### Priority scan (lines 148-167) -/

/-- The priority variables of the backward scan.  `-1` means unassigned
(`NotAssignedPriority`). -/
structure PrioState where
  DSReadPriority : Int
  DSWritePriority : Int
  VMEMLoadPriority : Int
  CurrentPriority : Int
deriving DecidableEq

/-- One iteration of the backward priority scan (the body of the
`while (SUIter >= 0)` loop). -/
def prioStep (st : PrioState) (su : SUnit) : PrioState :=
  if isDSRead su && decide (st.DSReadPriority < 0) then
    { st with DSReadPriority := st.CurrentPriority,
              CurrentPriority := st.CurrentPriority + 1 }
  else if isDSWrite su && decide (st.DSWritePriority < 0) then
    { st with DSWritePriority := st.CurrentPriority,
              CurrentPriority := st.CurrentPriority + 1 }
  else if isVMEMLoad su && decide (st.VMEMLoadPriority < 0) then
    { st with VMEMLoadPriority := st.CurrentPriority,
              CurrentPriority := st.CurrentPriority + 1 }
  else st

/-- The backward scan: units are visited in decreasing index (equivalently,
decreasing sequence-number) order.  The final `CurrentPriority` is the
source's `TotalPriority`. -/
def computePriorities (sus : List SUnit) : PrioState :=
  sus.reverse.foldl prioStep ⟨-1, -1, -1, 0⟩

/-! ### Pairing phase (lines 179-215) -/

/-- The inner pairing loop: pop one unit from the end of the category stack
and one from the end of the MFMA stack until either is exhausted.  Both
stacks are passed reversed (top = highest sequence number first); the result
is the emitted (MFMA unit, memory unit) pairs in emission order together
with the MFMA stack left for the next rank. -/
def pairLoop : List SUnit → List SUnit → List (SUnit × SUnit) × List SUnit
  | _, [] => ([], [])
  | [], m :: ms => ([], m :: ms)
  | c :: cs, m :: ms =>
    let rest := pairLoop cs ms
    ((m, c) :: rest.1, rest.2)

/-- The category stack owning rank `r`, per the else-if chain of the rank
loop (`VMEMLoadPriority`, then `DSWritePriority`, then `DSReadPriority`).
Unmatched ranks select no stack. -/
def rankCat (cl : Classified) (pr : PrioState) (r : Nat) : List SUnit :=
  if (r : Int) = pr.VMEMLoadPriority then cl.VMEMLoads
  else if (r : Int) = pr.DSWritePriority then cl.DSWrites
  else if (r : Int) = pr.DSReadPriority then cl.DSReads
  else []

/-- The rank loop (`while (CurrentPriority < TotalPriority)`): iterate ranks
`0, 1, ...`, pairing the rank's category stack against the one shared MFMA
stack; leftover MFMA items carry over to the next rank.  Returns the emitted
(MFMA unit, memory unit) pairs in emission order. -/
def pairingPhase (cl : Classified) (pr : PrioState) : List (SUnit × SUnit) :=
  ((List.range pr.CurrentPriority.toNat).foldl
    (fun acc r =>
      let step := pairLoop (rankCat cl pr r).reverse acc.2
      (acc.1 ++ step.1, step.2))
    ([], cl.MFMAs.reverse)).1

/-- The edge one pairing-phase iteration inserts:
`DAG->addEdge(MFMASU, SDep(MemSU, SDep::Artificial))`, i.e. the MFMA unit
depends on the memory unit. -/
def interleaveEdge (p : SUnit × SUnit) : Edge :=
  ⟨p.2.nodeNum, p.1.nodeNum, DepKind.Artificial⟩

/-- Outcome of `CustomInterleaving::apply`: `undef` models the out-of-bounds
`SUnits[0]` read on an empty region; `assertFail` models the hard
`assert(VMEMStoreCount == 0)` firing; `done` is normal completion with the
mutated graph. -/
inductive ApplyResult
  | undef
  | assertFail
  | done (dag : DAG)
deriving DecidableEq

/-- `CustomInterleaving::apply` (lines 86-224): recognize the hot-loop
shape (early return on non-match), classify units, assert that no VMEM
store is present, compute priorities by the backward scan, and append one
Artificial edge per emitted pair. -/
def CustomInterleaving.apply (dag : DAG) : ApplyResult :=
  match identifyGEMMHotLoop dag with
  | none => ApplyResult.undef
  | some false => ApplyResult.done dag
  | some true =>
    let cl := classifySUnits dag.SUnits
    if cl.VMEMStores.length != 0 then ApplyResult.assertFail
    else
      let pr := computePriorities dag.SUnits
      let pairs := pairingPhase cl pr
      ApplyResult.done { dag with edges := dag.edges ++ pairs.map interleaveEdge }

/-! ### Memory-operation records (ScheduleDAGMutation.h, lines 41-69) -/

/-- `BaseMemOpClusterMutation::MemOpInfo`: the per-access record
`(SU, BaseOps, Offset, Width)`.  The unit pointer is represented by the
unit's `NodeNum`; operand handles are abstract (`α`). -/
structure MemOpInfo (α : Type) where
  nodeNum : Nat
  baseOps : List α
  offset : Int
  width : Nat
deriving DecidableEq

/-- `std::lexicographical_compare` over operand lists with comparator
`cmp`: true iff the first range is lexicographically less. -/
def lexCompare (cmp : α → α → Bool) : List α → List α → Bool
  | _, [] => false
  | [], _ :: _ => true
  | a :: as, b :: bs =>
    if cmp a b then true
    else if cmp b a then false
    else lexCompare cmp as bs

/-- `MemOpInfo::operator<` (lines 55-68): lexicographic by base operands
under `Compare` (here the abstract `cmp`), then by offset, then by the
unit's `NodeNum`. -/
def memOpLT (cmp : α → α → Bool) (a b : MemOpInfo α) : Bool :=
  if lexCompare cmp a.baseOps b.baseOps then true
  else if lexCompare cmp b.baseOps a.baseOps then false
  else if a.offset != b.offset then decide (a.offset < b.offset)
  else decide (a.nodeNum < b.nodeNum)

/-! ### DS-read record collection (AMDGPUDSReadClustering.cpp, lines 35-82) -/

/-- The per-unit body of `DSReadClustering::collectMemOpRecords`.  The
logging block of lines 39-51 only `continue`s on a direction mismatch, which
the unconditional direction filter of lines 53-55 re-checks, so one filter
captures both; then non-LDS instructions are skipped, and a record is pushed
exactly when `getMemOperandsWithOffsetWidth` succeeds — a unit whose address
does not decompose is skipped silently. -/
def collectStep (IsLoad : Bool) (su : SUnit) : Option (MemOpInfo Int) :=
  match su.instr with
  | none => none
  | some mi =>
    if (IsLoad && !mi.mayLoad) || (!IsLoad && !mi.mayStore) then none
    else if !mi.isDS then none
    else
      match mi.baseAddr with
      | some (bops, off, w) => some ⟨su.nodeNum, bops, off, w⟩
      | none => none

/-- `DSReadClustering::collectMemOpRecords`: the loop over the region's
units, pushing one record per eligible unit.  The `DSReadClustering`
instance is constructed with `IsLoad = true`. -/
def collectMemOpRecords (IsLoad : Bool) (sus : List SUnit) : List (MemOpInfo Int) :=
  sus.filterMap (collectStep IsLoad)

/-! ### Clustering edge insertion, modelled from the spec -/

/-- Modelled from the spec: the operand comparator
`BaseMemOpClusterMutation::MemOpInfo::Compare` is declared in
`ScheduleDAGMutation.h` but its body is not among these sources; the spec
requires only a canonical strict operand ordering, modelled as integer
comparison on the opaque operand handles. -/
def operandLT (a b : Int) : Bool := decide (a < b)

/-- Insert a record into the group whose members share its base-operand
sequence, or open a new group. -/
def groupInsert (r : MemOpInfo Int) : List (List (MemOpInfo Int)) → List (List (MemOpInfo Int))
  | [] => [[r]]
  | g :: gs =>
    match g with
    | [] => [r] :: gs
    | r0 :: _ => if r0.baseOps == r.baseOps then (g ++ [r]) :: gs else g :: groupInsert r gs

/-- Modelled from the spec: `BaseMemOpClusterMutation::groupMemOps` (declared
in `ScheduleDAGMutation.h`; body not among these sources) partitions records
into groups of element-wise equal base-operand sequences. -/
def groupMemOps (recs : List (MemOpInfo Int)) : List (List (MemOpInfo Int)) :=
  recs.foldl (fun gs r => groupInsert r gs) []

/-- Insertion step of sorting a group by the record comparator. -/
def insertSorted (r : MemOpInfo Int) : List (MemOpInfo Int) → List (MemOpInfo Int)
  | [] => [r]
  | x :: xs => if memOpLT operandLT r x then r :: x :: xs else x :: insertSorted r xs

/-- Sort a group of records by the record comparator. -/
def sortRecs (l : List (MemOpInfo Int)) : List (MemOpInfo Int) :=
  l.foldr insertSorted []

/-- Edge insertion as set union: never duplicate an edge already present. -/
def addEdgeUnique (edges : List Edge) (e : Edge) : List Edge :=
  if e ∈ edges then edges else edges ++ [e]

/-- Modelled from the spec: `BaseMemOpClusterMutation::clusterNeighboringMemOps`
(declared in `ScheduleDAGMutation.h`; body not among these sources).  Within
each group, after sorting by the record comparator, adjacent members are
linked by one Cluster edge and one Artificial edge from the later to the
earlier record; insertion is set-union.  The fast-cluster fan-in heuristic
and window cap only skip insertions and are not modelled. -/
def clusterNeighboringMemOps (recs : List (MemOpInfo Int)) (dag : DAG) : DAG :=
  let linkGroup := fun (es : List Edge) (g : List (MemOpInfo Int)) =>
    let sorted := sortRecs g
    (sorted.zip (sorted.drop 1)).foldl
      (fun es p =>
        addEdgeUnique (addEdgeUnique es ⟨p.1.nodeNum, p.2.nodeNum, DepKind.Cluster⟩)
          ⟨p.1.nodeNum, p.2.nodeNum, DepKind.Artificial⟩)
      es
  { dag with edges := (groupMemOps recs).foldl linkGroup dag.edges }

/-- `DSReadClustering`'s whole mutation: collect the records (from the
source) and run the clustering edge insertion (modelled from the spec). -/
def DSReadClusteringApply (dag : DAG) : DAG :=
  clusterNeighboringMemOps (collectMemOpRecords true dag.SUnits) dag

/-! ### Spec-side category model and priority scan (for refinement) -/

/-- The five categories plus `Other`, as in the spec's data model. -/
inductive Category
  | DSRead
  | DSWrite
  | MFMA
  | VMEMLoad
  | VMEMStore
  | Other
deriving DecidableEq

/-- A unit's category, first match wins, in the order of the
classification loop's else-if chain. -/
def category (su : SUnit) : Category :=
  if isDSRead su then Category.DSRead
  else if isDSWrite su then Category.DSWrite
  else if isMFMA su then Category.MFMA
  else if isVMEMLoad su then Category.VMEMLoad
  else if isVMEMStore su then Category.VMEMStore
  else Category.Other

/-- Spec-side priority-scan step, following the spec's words: the first
time a unit of category C (C among local read, local write, vector load) is
encountered, C's priority becomes the count of categories already assigned
and the counter increments; compute-category units and other categories
assign nothing. -/
def specStep (st : PrioState) (su : SUnit) : PrioState :=
  if category su = Category.DSRead then
    (if st.DSReadPriority < 0 then
      { st with DSReadPriority := st.CurrentPriority,
                CurrentPriority := st.CurrentPriority + 1 }
    else st)
  else if category su = Category.DSWrite then
    (if st.DSWritePriority < 0 then
      { st with DSWritePriority := st.CurrentPriority,
                CurrentPriority := st.CurrentPriority + 1 }
    else st)
  else if category su = Category.VMEMLoad then
    (if st.VMEMLoadPriority < 0 then
      { st with VMEMLoadPriority := st.CurrentPriority,
                CurrentPriority := st.CurrentPriority + 1 }
    else st)
  else st

/-- Spec-side priority scan: visit units in decreasing sequence-number
order (from the end of the region backward). -/
def specPriorityScan (sus : List SUnit) : PrioState :=
  sus.reverse.foldl specStep ⟨-1, -1, -1, 0⟩

/-- The four raw predicates the priority scan branches on are pairwise
exclusive on the unit.  The LDS, vector-memory and matrix instruction
formats are mutually exclusive, but an LDS atomic with return both loads
and stores, so this condition genuinely excludes DS atomics; it is the
regime in which the scan's else-if chain coincides with the first-match
category model. -/
def ExclusiveCats (su : SUnit) : Prop :=
  ¬(isDSRead su = true ∧ isDSWrite su = true) ∧
  ¬(isDSRead su = true ∧ isVMEMLoad su = true) ∧
  ¬(isDSWrite su = true ∧ isVMEMLoad su = true) ∧
  ¬(isMFMA su = true ∧ isVMEMLoad su = true)

instance (su : SUnit) : Decidable (ExclusiveCats su) := by
  unfold ExclusiveCats; infer_instance

/-! ### Auxiliary definitions for the statements and examples -/

/-- A strict weak order on operand handles, as assumed of the operand
comparator `Compare`: irreflexive, transitive, with transitive
incomparability. -/
structure IsSWO (cmp : α → α → Bool) : Prop where
  irrefl : ∀ a, cmp a a = false
  trans : ∀ a b c, cmp a b = true → cmp b c = true → cmp a c = true
  incompTrans : ∀ a b c, cmp a b = false → cmp b a = false →
    cmp b c = false → cmp c b = false → cmp a c = false

/-- An advisory edge kind: Cluster or Artificial. -/
def advisory (e : Edge) : Prop :=
  e.kind = DepKind.Cluster ∨ e.kind = DepKind.Artificial

/-- Reference form of the rank loop: consume the shared MFMA stack by a
sequence of category stacks, chunk by chunk. -/
def chunked : List (List SUnit) → List SUnit → List (SUnit × SUnit)
  | [], _ => []
  | cs :: rest, ms => (ms.zip cs) ++ chunked rest (ms.drop cs.length)

/-- Example operation: an inline-asm marker. -/
def opAsm : Op := ⟨false, false, false, false, false, true, 0, none⟩

/-- Example operation: the recognized conditional branch (exit unit). -/
def opBranch : Op := ⟨false, false, false, false, false, false, S_CBRANCH_SCC1, none⟩

/-- Example operation: a vector-memory store. -/
def opVStore : Op := ⟨false, true, false, true, false, false, 0, none⟩

/-- Example operation: a vector-memory load. -/
def opVLoad : Op := ⟨true, false, false, true, false, false, 0, none⟩

/-- Example operation: an LDS read. -/
def opDSRead : Op := ⟨true, false, true, false, false, false, 0, none⟩

/-- Example operation: an LDS write. -/
def opDSWrite : Op := ⟨false, true, true, false, false, false, 0, none⟩

/-- Example operation: a matrix compute (MFMA). -/
def opMFMA : Op := ⟨false, false, false, false, true, false, 0, none⟩

/-- Example operation: a plain scalar operation matching no category. -/
def opPlain : Op := ⟨false, false, false, false, false, false, 0, none⟩

/-- Example operation: an LDS read at base operand 5, offset 0, width 4. -/
def opDSReadA0 : Op := ⟨true, false, true, false, false, false, 0, some ([5], 0, 4)⟩

/-- Example operation: an LDS read at base operand 5, offset 4, width 4. -/
def opDSReadA4 : Op := ⟨true, false, true, false, false, false, 0, some ([5], 4, 4)⟩

/-- Example region: first unit matches no hot-loop begin, exit is the
recognized branch. -/
def exDagNonMatch : DAG := ⟨[⟨0, some opPlain⟩, ⟨1, some opMFMA⟩], some opBranch, []⟩

/-- Example region: matched shape containing a vector-memory store. -/
def exDagStore : DAG := ⟨[⟨0, some opAsm⟩, ⟨1, some opVStore⟩], some opBranch, []⟩

/-- Example region: matched shape whose compute count (1) does not exceed
its memory count (1). -/
def exDagLow : DAG := ⟨[⟨0, some opAsm⟩, ⟨1, some opDSRead⟩, ⟨2, some opMFMA⟩], some opBranch, []⟩

/-- Example region: the spec's interleave scenario — 2 vector loads,
1 LDS write, 3 MFMAs, inline-asm first unit, recognized branch exit. -/
def exDagMatched : DAG :=
  ⟨[⟨0, some opAsm⟩, ⟨1, some opVLoad⟩, ⟨2, some opVLoad⟩, ⟨3, some opDSWrite⟩,
    ⟨4, some opMFMA⟩, ⟨5, some opMFMA⟩, ⟨6, some opMFMA⟩], some opBranch, []⟩

/-- Example region for the clustering pass: two LDS reads off the same
base, offsets 0 and 4, plus a unit with no address decomposition. -/
def exDagCluster : DAG :=
  ⟨[⟨0, some opDSReadA0⟩, ⟨1, some opDSReadA4⟩, ⟨2, some opDSRead⟩,
    ⟨3, some opVStore⟩], none, []⟩

/-- Example operation: an LDS atomic with return — it both loads and
stores (e.g. `ds_add_rtn_u32`), so `isDSRead` and `isDSWrite` hold of the
same unit. -/
def opDSAtomic : Op := ⟨true, true, true, false, false, false, 0, none⟩

/-- Example region: matched shape holding two LDS atomics.  Both classify
as local reads (first match wins), so the local-write category has zero
members, yet the backward scan's else-if cascade assigns it a priority at
the second atomic. -/
def exDagAtomic : DAG :=
  ⟨[⟨0, some opAsm⟩, ⟨1, some opDSAtomic⟩, ⟨2, some opDSAtomic⟩], some opBranch, []⟩

/-- Invariant of the backward priority scan: the counter is non-negative,
every priority is either unassigned (`-1`) or lies in `[0, counter)`, and
assigned priorities are pairwise distinct. -/
def ScanInv (st : PrioState) : Prop :=
  0 ≤ st.CurrentPriority ∧
  (st.DSReadPriority = -1 ∨ (0 ≤ st.DSReadPriority ∧ st.DSReadPriority < st.CurrentPriority)) ∧
  (st.DSWritePriority = -1 ∨ (0 ≤ st.DSWritePriority ∧ st.DSWritePriority < st.CurrentPriority)) ∧
  (st.VMEMLoadPriority = -1 ∨ (0 ≤ st.VMEMLoadPriority ∧ st.VMEMLoadPriority < st.CurrentPriority)) ∧
  ¬(0 ≤ st.DSReadPriority ∧ st.DSReadPriority = st.DSWritePriority) ∧
  ¬(0 ≤ st.DSReadPriority ∧ st.DSReadPriority = st.VMEMLoadPriority) ∧
  ¬(0 ≤ st.DSWritePriority ∧ st.DSWritePriority = st.VMEMLoadPriority)

/-! ### Shared helper lemmas -/

/-- Fold invariance: a property preserved by each step holds of the fold. -/
theorem foldl_inv {α β : Type} {f : β → α → β} {I : β → Prop}
    (hI : ∀ b a, I b → I (f b a)) :
    ∀ (l : List α) (b : β), I b → I (l.foldl f b) := by
  intro l
  induction l with
  | nil => intro b hb; simpa using hb
  | cons a l ih => intro b hb; simpa using ih (f b a) (hI b a hb)

/-- On a nonempty region the shape check returns the two-flag conjunction. -/
theorem identify_cons (su : SUnit) (rest : List SUnit) (ex : Option Op) (es : List Edge) :
    identifyGEMMHotLoop ⟨su :: rest, ex, es⟩ =
      some (su.isInstr && (isInlineAsm su || isVMEMLoad su) &&
        ((su.isInstr && (isInlineAsm su || isVMEMLoad su)) &&
          (match ex with
           | some mi => mi.opcode == S_CBRANCH_SCC1
           | none => false))) := by
  rfl

/-! ### C10 — unguarded index-0 read in the recognizer -/

/-- C10: the hot-loop recognizer reads the unit at index 0 without a
bounds check, so it (and hence `apply`) is well-defined exactly on
non-empty regions: the recognizer yields a result iff the region is
non-empty, and `apply` hits the out-of-bounds branch iff the region is
empty. -/
theorem identify_requires_nonempty (dag : DAG) :
    (identifyGEMMHotLoop dag = none ↔ dag.SUnits = []) ∧
    (CustomInterleaving.apply dag = ApplyResult.undef ↔ dag.SUnits = []) := by
  obtain ⟨sus, ex, es⟩ := dag
  cases sus with
  | nil =>
    constructor
    · simp [identifyGEMMHotLoop]
    · simp [CustomInterleaving.apply, identifyGEMMHotLoop]
  | cons su rest =>
    have hne : identifyGEMMHotLoop ⟨su :: rest, ex, es⟩ ≠ none := by
      simp [identify_cons]
    constructor
    · simp [identify_cons]
    · have hnu : CustomInterleaving.apply ⟨su :: rest, ex, es⟩ ≠ ApplyResult.undef := by
        rw [CustomInterleaving.apply.eq_def]
        cases hid : identifyGEMMHotLoop ⟨su :: rest, ex, es⟩ with
        | none => exact absurd hid hne
        | some b =>
          cases b
          · simp
          · dsimp only
            split <;> simp
      simp [hnu]

/-! ### C2 — no-op on non-match -/

/-- C2: when the region's first unit is neither an inline-asm marker nor a
vector-memory load, or its exit unit's instruction is not the recognized
conditional branch (including a missing exit instruction), `apply` returns
the graph untouched: no edges added, nothing else mutated. -/
theorem interleave_noop_on_nonmatch (dag : DAG) (su : SUnit)
    (h0 : dag.SUnits.get? 0 = some su)
    (h : (¬(isInlineAsm su = true ∨ isVMEMLoad su = true)) ∨
         (∀ mi, dag.exitInstr = some mi → mi.opcode ≠ S_CBRANCH_SCC1)) :
    CustomInterleaving.apply dag = ApplyResult.done dag := by
  obtain ⟨sus, ex, es⟩ := dag
  cases sus with
  | nil => simp at h0
  | cons su0 rest =>
    have hsu : su0 = su := by simpa using h0
    subst hsu
    have hid : identifyGEMMHotLoop ⟨su0 :: rest, ex, es⟩ = some false := by
      rw [identify_cons]
      rcases h with h | h
      · push_neg at h
        simp [h.1, h.2]
      · cases hex : ex with
        | none => simp
        | some mi =>
          have := h mi hex
          simp only [Option.some.injEq]
          have hbeq : (mi.opcode == S_CBRANCH_SCC1) = false := by
            simpa using this
          simp [hbeq]
    rw [CustomInterleaving.apply.eq_def, hid]

/-- Witness for C2: a concrete region whose first unit is a plain scalar
operation is left untouched. -/
theorem interleave_noop_on_nonmatch_witness :
    CustomInterleaving.apply exDagNonMatch = ApplyResult.done exDagNonMatch :=
  interleave_noop_on_nonmatch exDagNonMatch ⟨0, some opPlain⟩ (by decide)
    (Or.inl (by decide))

/-! ### C1 — assertion behaviour on internal-consistency violations -/

/-- C1 (amended): on a matched region, a vector-memory store triggers the
hard assertion `assert(VMEMStoreCount == 0)` — a program termination in
assertion-enabled builds, not a non-fatal skip; and no compute-versus-memory
count comparison exists: whenever no vector store is present, `apply`
performs its edge insertion unconditionally, regardless of how the MFMA
count compares with the memory-node count. -/
theorem interleave_assert_on_matched (dag : DAG)
    (hm : identifyGEMMHotLoop dag = some true) :
    ((classifySUnits dag.SUnits).VMEMStores ≠ [] →
       CustomInterleaving.apply dag = ApplyResult.assertFail) ∧
    ((classifySUnits dag.SUnits).VMEMStores = [] →
       CustomInterleaving.apply dag = ApplyResult.done
         { dag with edges := dag.edges ++
             (pairingPhase (classifySUnits dag.SUnits)
               (computePriorities dag.SUnits)).map interleaveEdge }) := by
  rw [CustomInterleaving.apply.eq_def, hm]
  constructor
  · intro hne
    have : ((classifySUnits dag.SUnits).VMEMStores.length != 0) = true := by
      simpa using hne
    simp [this]
  · intro heq
    have : ((classifySUnits dag.SUnits).VMEMStores.length != 0) = false := by
      simp [heq]
    simp [this]

/-- Witness for C1's amended statement at a concrete matched region with a
vector store (assertion fires) and without one (insertion proceeds). -/
theorem interleave_assert_on_matched_witness :
    CustomInterleaving.apply exDagStore = ApplyResult.assertFail :=
  (interleave_assert_on_matched exDagStore (by decide)).1 (by decide)

/-- Counterexample to C1 as stated: on the matched region `exDagStore`
containing a vector-memory store, `apply` hits the hard assertion instead
of skipping edge insertion and returning; and on the matched region
`exDagLow`, whose compute count (1) does not exceed its memory count (1),
`apply` does not skip the remaining edge insertion — it inserts an
Artificial edge. -/
theorem interleave_assert_counterexample :
    (identifyGEMMHotLoop exDagStore = some true ∧
      CustomInterleaving.apply exDagStore = ApplyResult.assertFail) ∧
    (identifyGEMMHotLoop exDagLow = some true ∧
      (classifySUnits exDagLow.SUnits).MFMAs.length ≤
        (classifySUnits exDagLow.SUnits).DSReads.length +
        (classifySUnits exDagLow.SUnits).DSWrites.length +
        (classifySUnits exDagLow.SUnits).VMEMLoads.length ∧
      CustomInterleaving.apply exDagLow =
        ApplyResult.done ⟨exDagLow.SUnits, exDagLow.exitInstr,
          [⟨1, 2, DepKind.Artificial⟩]⟩) := by
  decide

/-! ### C7 — DS-read record collection -/

/-- The per-unit record characterization: a record is produced exactly for
a unit whose instruction may load, is an LDS instruction, and decomposes
into base+offset+width. -/
theorem collectStep_eq_some_iff (su : SUnit) (r : MemOpInfo Int) :
    collectStep true su = some r ↔
      ∃ mi, su.instr = some mi ∧ mi.mayLoad = true ∧ mi.isDS = true ∧
        ∃ bops off w, mi.baseAddr = some (bops, off, w) ∧
          r = ⟨su.nodeNum, bops, off, w⟩ := by
  cases hsu : su.instr with
  | none => simp [collectStep, hsu]
  | some mi =>
    cases hl : mi.mayLoad with
    | false => simp [collectStep, hsu, hl]
    | true =>
      cases hd : mi.isDS with
      | false => simp [collectStep, hsu, hl, hd]
      | true =>
        cases hb : mi.baseAddr with
        | none => simp [collectStep, hsu, hl, hd, hb]
        | some t =>
          obtain ⟨bops, off, w⟩ := t
          simp [collectStep, hsu, hl, hd, hb, MemOpInfo.mk.injEq]
          constructor
          · intro h
            exact ⟨bops, off, w, ⟨rfl, rfl, rfl⟩, h.symm⟩
          · rintro ⟨b', o', w', ⟨rfl, rfl, rfl⟩, rfl⟩
            rfl

/-- C7: the DS-read clustering collection produces a record exactly for the
units whose instruction may load (store-only instructions are never
recorded), is an LDS instruction, and exposes a base+offset+width
decomposition; units whose address does not decompose are silently
skipped, and a region with no eligible units yields an empty record
list. -/
theorem dsread_collect_characterization (sus : List SUnit) (r : MemOpInfo Int) :
    (r ∈ collectMemOpRecords true sus ↔
      ∃ su ∈ sus, ∃ mi, su.instr = some mi ∧ mi.mayLoad = true ∧
        mi.isDS = true ∧ ∃ bops off w, mi.baseAddr = some (bops, off, w) ∧
          r = ⟨su.nodeNum, bops, off, w⟩) ∧
    ((∀ su ∈ sus, ∀ mi, su.instr = some mi →
        ¬(mi.mayLoad = true ∧ mi.isDS = true ∧ mi.baseAddr.isSome = true)) →
      collectMemOpRecords true sus = []) := by
  constructor
  · rw [collectMemOpRecords, List.mem_filterMap]
    constructor
    · rintro ⟨su, hsu, hstep⟩
      exact ⟨su, hsu, (collectStep_eq_some_iff su r).mp hstep⟩
    · rintro ⟨su, hsu, hch⟩
      exact ⟨su, hsu, (collectStep_eq_some_iff su r).mpr hch⟩
  · intro hno
    rw [collectMemOpRecords, List.filterMap_eq_nil_iff]
    intro su hsu
    cases hstep : collectStep true su with
    | none => rfl
    | some r0 =>
      obtain ⟨mi, hmi, hl, hd, bops, off, w, hb, -⟩ :=
        (collectStep_eq_some_iff su r0).mp hstep
      exact absurd ⟨hl, hd, by simp [hb]⟩ (hno su hsu mi hmi)

/-- Witness for C7 on a concrete region: a decomposable LDS read is
recorded, and a region holding only a vector store yields no records. -/
theorem dsread_collect_characterization_witness :
    (⟨0, [5], 0, 4⟩ : MemOpInfo Int) ∈ collectMemOpRecords true exDagCluster.SUnits ∧
    collectMemOpRecords true [(⟨7, some opVStore⟩ : SUnit)] = [] := by
  constructor
  · exact (dsread_collect_characterization exDagCluster.SUnits _).1.mpr
      ⟨⟨0, some opDSReadA0⟩, by decide, opDSReadA0, rfl, rfl, rfl,
        [5], 0, 4, rfl, rfl⟩
  · refine (dsread_collect_characterization [(⟨7, some opVStore⟩ : SUnit)] ⟨0, [], 0, 0⟩).2 ?_
    intro su hsu mi hmi
    obtain rfl : su = ⟨7, some opVStore⟩ := by simpa using hsu
    obtain rfl : mi = opVStore := by simpa using hmi.symm
    decide

/-! ### C8 — mutations only append advisory edges -/

/-- Set-union edge insertion preserves the existing edges as a prefix and
appends only edges with the inserted kind. -/
theorem addEdgeUnique_preserves (base es : List Edge) (e : Edge)
    (he : advisory e)
    (h : ∃ added, es = base ++ added ∧ ∀ x ∈ added, advisory x) :
    ∃ added, addEdgeUnique es e = base ++ added ∧ ∀ x ∈ added, advisory x := by
  obtain ⟨added, rfl, hall⟩ := h
  rw [addEdgeUnique]
  split
  · exact ⟨added, rfl, hall⟩
  · refine ⟨added ++ [e], by simp, ?_⟩
    intro x hx
    rcases List.mem_append.mp hx with hx | hx
    · exact hall x hx
    · obtain rfl : x = e := by simpa using hx
      exact he

/-- The modelled clustering edge insertion preserves existing edges and
appends only Cluster or Artificial edges. -/
theorem clusterNeighboringMemOps_preserves (recs : List (MemOpInfo Int)) (dag : DAG) :
    (clusterNeighboringMemOps recs dag).SUnits = dag.SUnits ∧
    (clusterNeighboringMemOps recs dag).exitInstr = dag.exitInstr ∧
    ∃ added, (clusterNeighboringMemOps recs dag).edges = dag.edges ++ added ∧
      ∀ e ∈ added, advisory e := by
  refine ⟨rfl, rfl, ?_⟩
  rw [clusterNeighboringMemOps]
  apply foldl_inv (I := fun es => ∃ added, es = dag.edges ++ added ∧ ∀ e ∈ added, advisory e)
  · intro es g hI
    apply foldl_inv (I := fun es => ∃ added, es = dag.edges ++ added ∧ ∀ e ∈ added, advisory e)
    · intro es p hI'
      apply addEdgeUnique_preserves _ _ _ (Or.inr rfl)
      exact addEdgeUnique_preserves _ _ _ (Or.inl rfl) hI'
    · exact hI
  · exact ⟨[], by simp, by simp⟩

/-- C8: neither pass removes or modifies a pre-existing edge or changes any
instruction: the interleave pass returns the graph with its original edge
list as a prefix, every appended edge of the Artificial kind, and the unit
list untouched; the clustering pass likewise only appends Cluster or
Artificial edges. -/
theorem mutations_preserve_graph (dag : DAG) :
    (∀ d', CustomInterleaving.apply dag = ApplyResult.done d' →
        d'.SUnits = dag.SUnits ∧ d'.exitInstr = dag.exitInstr ∧
        ∃ added, d'.edges = dag.edges ++ added ∧
          ∀ e ∈ added, e.kind = DepKind.Artificial) ∧
    ((DSReadClusteringApply dag).SUnits = dag.SUnits ∧
     (DSReadClusteringApply dag).exitInstr = dag.exitInstr ∧
     ∃ added, (DSReadClusteringApply dag).edges = dag.edges ++ added ∧
       ∀ e ∈ added, advisory e) := by
  constructor
  · intro d' hd'
    rw [CustomInterleaving.apply.eq_def] at hd'
    cases hid : identifyGEMMHotLoop dag with
    | none => rw [hid] at hd'; cases hd'
    | some b =>
      rw [hid] at hd'
      cases b
      · obtain rfl : dag = d' := by
          simpa using hd'
        exact ⟨rfl, rfl, [], by simp, by simp⟩
      · dsimp only at hd'
        split at hd'
        case isTrue => cases hd'
        case isFalse =>
          obtain rfl : ({ dag with edges := dag.edges ++
              (pairingPhase (classifySUnits dag.SUnits)
                (computePriorities dag.SUnits)).map interleaveEdge } : DAG) = d' := by
            simpa using hd'
          refine ⟨rfl, rfl, _, rfl, ?_⟩
          intro e he
          obtain ⟨p, -, rfl⟩ := List.mem_map.mp he
          rfl
  · exact clusterNeighboringMemOps_preserves _ dag

/-- Witness for C8 at concrete regions: the matched interleave example and
the clustering example both keep their (empty) original edge lists as a
prefix. -/
theorem mutations_preserve_graph_witness :
    ∃ added, (DSReadClusteringApply exDagCluster).edges = exDagCluster.edges ++ added ∧
      ∀ e ∈ added, advisory e :=
  (mutations_preserve_graph exDagCluster).2.2.2

/-! ### C9 — loops bounded by the region's node count -/

/-- Each scan step raises the running priority counter by at most one. -/
theorem prioStep_counter_le (st : PrioState) (su : SUnit) :
    (prioStep st su).CurrentPriority ≤ st.CurrentPriority + 1 := by
  rw [prioStep]
  split
  · simp
  · split
    · simp
    · split
      · simp
      · simp

/-- The scan's counter grows by at most the number of visited units. -/
theorem prio_fold_counter_le (l : List SUnit) :
    ∀ st : PrioState, (l.foldl prioStep st).CurrentPriority ≤
      st.CurrentPriority + l.length := by
  induction l with
  | nil => intro st; simp
  | cons a l ih =>
    intro st
    calc (l.foldl prioStep (prioStep st a)).CurrentPriority
        ≤ (prioStep st a).CurrentPriority + l.length := ih _
      _ ≤ st.CurrentPriority + 1 + l.length := by
          have := prioStep_counter_le st a
          omega
      _ = st.CurrentPriority + (a :: l).length := by simp; omega

/-- Each inner pairing iteration moves exactly one MFMA unit from the
stack into the emitted pairs. -/
theorem pairLoop_len : ∀ cs ms : List SUnit,
    (pairLoop cs ms).1.length + (pairLoop cs ms).2.length = ms.length := by
  intro cs
  induction cs with
  | nil => intro ms; cases ms <;> simp [pairLoop]
  | cons c cs ih =>
    intro ms
    cases ms with
    | nil => simp [pairLoop]
    | cons m ms =>
      have := ih ms
      simp only [pairLoop, List.length_cons]
      omega

/-- The pairing phase emits at most one pair per MFMA unit. -/
theorem pairingPhase_le_mfma (cl : Classified) (pr : PrioState) :
    (pairingPhase cl pr).length ≤ cl.MFMAs.length := by
  rw [pairingPhase]
  have h := foldl_inv
    (I := fun acc : List (SUnit × SUnit) × List SUnit =>
      acc.1.length + acc.2.length = cl.MFMAs.length)
    (f := fun acc r =>
      let step := pairLoop (rankCat cl pr r).reverse acc.2
      (acc.1 ++ step.1, step.2))
    (by
      intro acc r hI
      dsimp only
      rw [List.length_append]
      have := pairLoop_len (rankCat cl pr r).reverse acc.2
      omega)
    (List.range pr.CurrentPriority.toNat)
    ([], cl.MFMAs.reverse)
    (by simp)
  omega

/-- A classified category list is a sublist of the region's units. -/
theorem classify_fold_sublist (l : List SUnit) :
    ∀ acc : Classified,
      (((l.foldl classifyStep acc).MFMAs).length ≤ acc.MFMAs.length + l.length) := by
  induction l with
  | nil => intro acc; simp
  | cons a l ih =>
    intro acc
    calc ((l.foldl classifyStep (classifyStep acc a)).MFMAs).length
        ≤ (classifyStep acc a).MFMAs.length + l.length := ih _
      _ ≤ acc.MFMAs.length + 1 + l.length := by
          rw [classifyStep]
          split
          · simp
          · split
            · simp
            · split
              · simp
              · split
                · simp
                · split
                  · simp
                  · simp
      _ = acc.MFMAs.length + (a :: l).length := by simp; omega

/-- C9: both passes terminate on every finite region — all their loop
structures are total functions of the unit list — and their iteration
counts are bounded by the region's node count: the backward scan assigns
at most one priority per unit, the rank/pairing loops emit at most one
pair per MFMA unit (itself at most the node count), and record collection
emits at most one record per unit. -/
theorem passes_bounded_by_region_size (dag : DAG) :
    (computePriorities dag.SUnits).CurrentPriority.toNat ≤ dag.SUnits.length ∧
    (classifySUnits dag.SUnits).MFMAs.length ≤ dag.SUnits.length ∧
    (pairingPhase (classifySUnits dag.SUnits)
        (computePriorities dag.SUnits)).length ≤ dag.SUnits.length ∧
    (collectMemOpRecords true dag.SUnits).length ≤ dag.SUnits.length := by
  have h1 : (computePriorities dag.SUnits).CurrentPriority.toNat ≤ dag.SUnits.length := by
    have := prio_fold_counter_le dag.SUnits.reverse ⟨-1, -1, -1, 0⟩
    rw [computePriorities]
    simp only [List.length_reverse] at this
    omega
  have h2 : (classifySUnits dag.SUnits).MFMAs.length ≤ dag.SUnits.length := by
    have := classify_fold_sublist dag.SUnits ⟨[], [], [], [], []⟩
    simpa [classifySUnits] using this
  refine ⟨h1, h2, ?_, ?_⟩
  · exact le_trans (pairingPhase_le_mfma _ _) h2
  · exact List.length_filterMap_le _ _

/-! ### C6 — the record comparator is a strict total order -/

/-- Under a strict weak order, lexicographic comparison is irreflexive. -/
theorem lex_irrefl {α : Type} {cmp : α → α → Bool} (h : IsSWO cmp) :
    ∀ l, lexCompare cmp l l = false := by
  intro l
  induction l with
  | nil => simp [lexCompare]
  | cons a as ih => simp [lexCompare, h.irrefl a, ih]

/-- Strict weak order: a strictly-less element stays strictly less across
an incomparable pair. -/
theorem swo_mix1 {α : Type} {cmp : α → α → Bool} (h : IsSWO cmp) (a b c : α)
    (hab : cmp a b = true) (hbc : cmp b c = false) (hcb : cmp c b = false) :
    cmp a c = true := by
  cases hac : cmp a c with
  | true => rfl
  | false =>
    have hca : cmp c a = false := by
      cases hca : cmp c a with
      | false => rfl
      | true =>
        have := h.trans c a b hca hab
        rw [this] at hcb; cases hcb
    have := h.incompTrans a c b hac hca hcb hbc
    rw [hab] at this; cases this

/-- Strict weak order: an incomparable pair followed by strictly-less stays
strictly less. -/
theorem swo_mix2 {α : Type} {cmp : α → α → Bool} (h : IsSWO cmp) (a b c : α)
    (hab : cmp a b = false) (hba : cmp b a = false) (hbc : cmp b c = true) :
    cmp a c = true := by
  cases hac : cmp a c with
  | true => rfl
  | false =>
    have hca : cmp c a = false := by
      cases hca : cmp c a with
      | false => rfl
      | true =>
        have := h.trans b c a hbc hca
        rw [this] at hba; cases hba
    have := h.incompTrans b a c hba hab hac hca
    rw [hbc] at this; cases this

/-- Unfolding lexicographic comparison on two nonempty lists. -/
theorem lex_cons_iff {α : Type} (cmp : α → α → Bool) (a b : α) (as bs : List α) :
    lexCompare cmp (a :: as) (b :: bs) = true ↔
      cmp a b = true ∨
        (cmp a b = false ∧ cmp b a = false ∧ lexCompare cmp as bs = true) := by
  by_cases h1 : cmp a b = true
  · simp [lexCompare, h1]
  · rw [Bool.not_eq_true] at h1
    by_cases h2 : cmp b a = true
    · simp [lexCompare, h1, h2]
    · rw [Bool.not_eq_true] at h2
      simp [lexCompare, h1, h2]

/-- Lexicographic incomparability is pointwise incomparability. -/
theorem lex_equiv_iff {α : Type} (cmp : α → α → Bool) :
    ∀ l1 l2 : List α,
      (lexCompare cmp l1 l2 = false ∧ lexCompare cmp l2 l1 = false) ↔
        List.Forall₂ (fun a b => cmp a b = false ∧ cmp b a = false) l1 l2 := by
  intro l1
  induction l1 with
  | nil => intro l2; cases l2 <;> simp [lexCompare]
  | cons a as ih =>
    intro l2
    cases l2 with
    | nil => simp [lexCompare]
    | cons b bs =>
      simp only [List.forall₂_cons]
      by_cases h1 : cmp a b = true
      · simp [lexCompare, h1]
      · rw [Bool.not_eq_true] at h1
        by_cases h2 : cmp b a = true
        · simp [lexCompare, h1, h2]
        · rw [Bool.not_eq_true] at h2
          simp [lexCompare, h1, h2, ih bs]

/-- Pointwise incomparability is transitive under a strict weak order. -/
theorem eqvl_trans {α : Type} {cmp : α → α → Bool} (h : IsSWO cmp) :
    ∀ {l1 l2 l3 : List α},
      List.Forall₂ (fun a b => cmp a b = false ∧ cmp b a = false) l1 l2 →
      List.Forall₂ (fun a b => cmp a b = false ∧ cmp b a = false) l2 l3 →
      List.Forall₂ (fun a b => cmp a b = false ∧ cmp b a = false) l1 l3 := by
  intro l1 l2 l3 h12
  induction h12 generalizing l3 with
  | nil =>
    intro h23
    cases h23
    exact List.Forall₂.nil
  | @cons a b as bs hab _ ih =>
    intro h23
    cases h23 with
    | cons hbc h23' =>
      refine List.Forall₂.cons ⟨?_, ?_⟩ (ih h23')
      · exact h.incompTrans _ _ _ hab.1 hab.2 hbc.1 hbc.2
      · exact h.incompTrans _ _ _ hbc.2 hbc.1 hab.2 hab.1

/-- Lexicographic comparison is transitive under a strict weak order. -/
theorem lex_trans {α : Type} {cmp : α → α → Bool} (h : IsSWO cmp) :
    ∀ l1 l2 l3 : List α, lexCompare cmp l1 l2 = true →
      lexCompare cmp l2 l3 = true → lexCompare cmp l1 l3 = true := by
  intro l1
  induction l1 with
  | nil =>
    intro l2 l3 h12 h23
    cases l2 with
    | nil => simp [lexCompare] at h12
    | cons b bs =>
      cases l3 with
      | nil => simp [lexCompare] at h23
      | cons c cs => simp [lexCompare]
  | cons a as ih =>
    intro l2 l3 h12 h23
    cases l2 with
    | nil => simp [lexCompare] at h12
    | cons b bs =>
      cases l3 with
      | nil => simp [lexCompare] at h23
      | cons c cs =>
        rw [lex_cons_iff] at h12 h23 ⊢
        rcases h12 with hab | ⟨hab, hba, htail12⟩
        · rcases h23 with hbc | ⟨hbc, hcb, htail23⟩
          · exact Or.inl (h.trans a b c hab hbc)
          · exact Or.inl (swo_mix1 h a b c hab hbc hcb)
        · rcases h23 with hbc | ⟨hbc, hcb, htail23⟩
          · exact Or.inl (swo_mix2 h a b c hab hba hbc)
          · refine Or.inr ⟨?_, ?_, ih bs cs htail12 htail23⟩
            · exact h.incompTrans a b c hab hba hbc hcb
            · exact h.incompTrans c b a hcb hbc hba hab

/-- A lexicographically smaller list stays smaller across an incomparable
pair of lists. -/
theorem lex_mix1 {α : Type} {cmp : α → α → Bool} (h : IsSWO cmp)
    (l1 l2 l3 : List α) (h12 : lexCompare cmp l1 l2 = true)
    (h23 : lexCompare cmp l2 l3 = false) (h32 : lexCompare cmp l3 l2 = false) :
    lexCompare cmp l1 l3 = true := by
  cases h13 : lexCompare cmp l1 l3 with
  | true => rfl
  | false =>
    have h31 : lexCompare cmp l3 l1 = false := by
      cases h31 : lexCompare cmp l3 l1 with
      | false => rfl
      | true =>
        have := lex_trans h l3 l1 l2 h31 h12
        rw [this] at h32; cases h32
    have heq13 := (lex_equiv_iff cmp l1 l3).mp ⟨h13, h31⟩
    have heq32 := (lex_equiv_iff cmp l3 l2).mp ⟨h32, h23⟩
    have heq12 := eqvl_trans h heq13 heq32
    have := ((lex_equiv_iff cmp l1 l2).mpr heq12).1
    rw [h12] at this; cases this

/-- An incomparable pair of lists followed by lexicographically smaller
stays smaller. -/
theorem lex_mix2 {α : Type} {cmp : α → α → Bool} (h : IsSWO cmp)
    (l1 l2 l3 : List α) (h12 : lexCompare cmp l1 l2 = false)
    (h21 : lexCompare cmp l2 l1 = false) (h23 : lexCompare cmp l2 l3 = true) :
    lexCompare cmp l1 l3 = true := by
  cases h13 : lexCompare cmp l1 l3 with
  | true => rfl
  | false =>
    have h31 : lexCompare cmp l3 l1 = false := by
      cases h31 : lexCompare cmp l3 l1 with
      | false => rfl
      | true =>
        have := lex_trans h l2 l3 l1 h23 h31
        rw [this] at h21; cases h21
    have heq21 := (lex_equiv_iff cmp l2 l1).mp ⟨h21, h12⟩
    have heq13 := (lex_equiv_iff cmp l1 l3).mp ⟨h13, h31⟩
    have heq23 := eqvl_trans h heq21 heq13
    have := ((lex_equiv_iff cmp l2 l3).mpr heq23).1
    rw [h23] at this; cases this

/-- Unfolding the record comparator into its three tiers. -/
theorem memOpLT_true_iff {α : Type} (cmp : α → α → Bool) (a b : MemOpInfo α) :
    memOpLT cmp a b = true ↔
      lexCompare cmp a.baseOps b.baseOps = true ∨
        (lexCompare cmp a.baseOps b.baseOps = false ∧
         lexCompare cmp b.baseOps a.baseOps = false ∧
         (a.offset < b.offset ∨ (a.offset = b.offset ∧ a.nodeNum < b.nodeNum))) := by
  rw [memOpLT]
  by_cases h1 : lexCompare cmp a.baseOps b.baseOps = true
  · simp [h1]
  · rw [Bool.not_eq_true] at h1
    by_cases h2 : lexCompare cmp b.baseOps a.baseOps = true
    · simp [h1, h2]
    · rw [Bool.not_eq_true] at h2
      by_cases h3 : a.offset = b.offset
      · simp [h1, h2, h3]
      · simp [h1, h2, h3]

/-- C6: assuming the operand comparator is a strict weak order, the record
comparator — lexicographic over base operands, then offset, then sequence
number — is a strict total order on records with distinct sequence numbers:
irreflexive, transitive, and total; and two records with equal base
operands and equal offsets are ordered solely by sequence number. -/
theorem memop_comparator_strict_total_order {α : Type} (cmp : α → α → Bool)
    (h : IsSWO cmp) :
    (∀ a : MemOpInfo α, memOpLT cmp a a = false) ∧
    (∀ a b c : MemOpInfo α, memOpLT cmp a b = true → memOpLT cmp b c = true →
       memOpLT cmp a c = true) ∧
    (∀ a b : MemOpInfo α, a.nodeNum ≠ b.nodeNum →
       memOpLT cmp a b = true ∨ memOpLT cmp b a = true) ∧
    (∀ a b : MemOpInfo α, a.baseOps = b.baseOps → a.offset = b.offset →
       (memOpLT cmp a b = true ↔ a.nodeNum < b.nodeNum)) := by
  refine ⟨?_, ?_, ?_, ?_⟩
  · intro a
    cases hx : memOpLT cmp a a with
    | false => rfl
    | true =>
      rcases (memOpLT_true_iff cmp a a).mp hx with h1 | ⟨-, -, h2 | ⟨-, h3⟩⟩
      · rw [lex_irrefl h] at h1; cases h1
      · omega
      · omega
  · intro a b c hab hbc
    rw [memOpLT_true_iff] at hab hbc ⊢
    rcases hab with hab | ⟨hab, hba, htab⟩
    · rcases hbc with hbc | ⟨hbc, hcb, htbc⟩
      · exact Or.inl (lex_trans h _ _ _ hab hbc)
      · exact Or.inl (lex_mix1 h _ _ _ hab hbc hcb)
    · rcases hbc with hbc | ⟨hbc, hcb, htbc⟩
      · exact Or.inl (lex_mix2 h _ _ _ hab hba hbc)
      · refine Or.inr ⟨?_, ?_, ?_⟩
        · have heqab := (lex_equiv_iff cmp _ _).mp ⟨hab, hba⟩
          have heqbc := (lex_equiv_iff cmp _ _).mp ⟨hbc, hcb⟩
          exact ((lex_equiv_iff cmp _ _).mpr (eqvl_trans h heqab heqbc)).1
        · have heqcb := (lex_equiv_iff cmp _ _).mp ⟨hcb, hbc⟩
          have heqba := (lex_equiv_iff cmp _ _).mp ⟨hba, hab⟩
          exact ((lex_equiv_iff cmp _ _).mpr (eqvl_trans h heqcb heqba)).1
        · rcases htab with h1 | ⟨h1, h2⟩ <;> rcases htbc with h3 | ⟨h3, h4⟩
          · exact Or.inl (by omega)
          · exact Or.inl (by omega)
          · exact Or.inl (by omega)
          · exact Or.inr ⟨by omega, by omega⟩
  · intro a b hnn
    cases hab : lexCompare cmp a.baseOps b.baseOps with
    | true => exact Or.inl ((memOpLT_true_iff cmp a b).mpr (Or.inl hab))
    | false =>
      cases hba : lexCompare cmp b.baseOps a.baseOps with
      | true => exact Or.inr ((memOpLT_true_iff cmp b a).mpr (Or.inl hba))
      | false =>
        rcases lt_trichotomy a.offset b.offset with ho | ho | ho
        · exact Or.inl ((memOpLT_true_iff cmp a b).mpr
            (Or.inr ⟨hab, hba, Or.inl ho⟩))
        · rcases Nat.lt_or_ge a.nodeNum b.nodeNum with hn | hn
          · exact Or.inl ((memOpLT_true_iff cmp a b).mpr
              (Or.inr ⟨hab, hba, Or.inr ⟨ho, hn⟩⟩))
          · exact Or.inr ((memOpLT_true_iff cmp b a).mpr
              (Or.inr ⟨hba, hab, Or.inr ⟨ho.symm, by omega⟩⟩))
        · exact Or.inr ((memOpLT_true_iff cmp b a).mpr
            (Or.inr ⟨hba, hab, Or.inl ho⟩))
  · intro a b hbase hoff
    have hirr : lexCompare cmp a.baseOps b.baseOps = false := by
      rw [hbase]; exact lex_irrefl h _
    have hirr' : lexCompare cmp b.baseOps a.baseOps = false := by
      rw [hbase]; exact lex_irrefl h _
    rw [memOpLT_true_iff]
    constructor
    · rintro (h1 | ⟨-, -, h2 | ⟨-, h3⟩⟩)
      · rw [hirr] at h1; cases h1
      · omega
      · exact h3
    · intro hn
      exact Or.inr ⟨hirr, hirr', Or.inr ⟨hoff, hn⟩⟩

/-- The concrete integer operand ordering is a strict weak order. -/
theorem operandLT_swo : IsSWO operandLT := by
  constructor
  · intro a; simp [operandLT]
  · intro a b c h1 h2
    simp only [operandLT, decide_eq_true_eq] at h1 h2 ⊢
    omega
  · intro a b c h1 h2 h3 h4
    simp only [operandLT, decide_eq_false_iff_not] at h1 h2 h3 h4 ⊢
    omega

/-- Witness for C6: two records with equal base operands and equal offsets
are ordered by sequence number under the concrete integer comparator. -/
theorem memop_comparator_strict_total_order_witness :
    memOpLT operandLT ⟨0, [5], 0, 4⟩ ⟨1, [5], 0, 4⟩ = true :=
  ((memop_comparator_strict_total_order operandLT operandLT_swo).2.2.2
    ⟨0, [5], 0, 4⟩ ⟨1, [5], 0, 4⟩ rfl rfl).mpr (by decide)

/-! ### Classification as filtering -/

/-- The classification loop computes, for each category, the filter of the
region by that category's first-match predicate. -/
theorem classify_fold_eq (l : List SUnit) :
    ∀ acc : Classified,
      l.foldl classifyStep acc =
        ⟨acc.DSReads ++ l.filter (fun su => isDSRead su),
         acc.DSWrites ++ l.filter (fun su => !isDSRead su && isDSWrite su),
         acc.VMEMLoads ++ l.filter
           (fun su => !isDSRead su && !isDSWrite su && !isMFMA su && isVMEMLoad su),
         acc.VMEMStores ++ l.filter
           (fun su => !isDSRead su && !isDSWrite su && !isMFMA su &&
             !isVMEMLoad su && isVMEMStore su),
         acc.MFMAs ++ l.filter (fun su => !isDSRead su && !isDSWrite su && isMFMA su)⟩ := by
  induction l with
  | nil => intro acc; simp
  | cons a l ih =>
    intro acc
    rw [List.foldl_cons, ih (classifyStep acc a), classifyStep]
    by_cases h1 : isDSRead a = true
    · simp [h1, List.filter_cons]
    · rw [Bool.not_eq_true] at h1
      by_cases h2 : isDSWrite a = true
      · simp [h1, h2, List.filter_cons]
      · rw [Bool.not_eq_true] at h2
        by_cases h3 : isMFMA a = true
        · simp [h1, h2, h3, List.filter_cons]
        · rw [Bool.not_eq_true] at h3
          by_cases h4 : isVMEMLoad a = true
          · simp [h1, h2, h3, h4, List.filter_cons]
          · rw [Bool.not_eq_true] at h4
            by_cases h5 : isVMEMStore a = true
            · simp [h1, h2, h3, h4, h5, List.filter_cons]
            · rw [Bool.not_eq_true] at h5
              simp [h1, h2, h3, h4, h5, List.filter_cons]

/-- Closed form of the classification loop. -/
theorem classifySUnits_eq (l : List SUnit) :
    classifySUnits l =
      ⟨l.filter (fun su => isDSRead su),
       l.filter (fun su => !isDSRead su && isDSWrite su),
       l.filter (fun su => !isDSRead su && !isDSWrite su && !isMFMA su && isVMEMLoad su),
       l.filter (fun su => !isDSRead su && !isDSWrite su && !isMFMA su &&
         !isVMEMLoad su && isVMEMStore su),
       l.filter (fun su => !isDSRead su && !isDSWrite su && isMFMA su)⟩ := by
  rw [classifySUnits, classify_fold_eq]
  simp

/-! ### Scan invariants and the spec-side refinement (C3) -/

/-- One scan step preserves the scan invariant. -/
theorem prioStep_ScanInv (st : PrioState) (su : SUnit) (h : ScanInv st) :
    ScanInv (prioStep st su) := by
  rw [ScanInv] at h ⊢
  rw [prioStep]
  split
  · rename_i hc
    simp only [Bool.and_eq_true, decide_eq_true_eq] at hc
    dsimp only
    omega
  · split
    · rename_i hc
      simp only [Bool.and_eq_true, decide_eq_true_eq] at hc
      dsimp only
      omega
    · split
      · rename_i hc
        simp only [Bool.and_eq_true, decide_eq_true_eq] at hc
        dsimp only
        omega
      · exact h

/-- The whole backward scan satisfies the scan invariant. -/
theorem computePriorities_ScanInv (sus : List SUnit) :
    ScanInv (computePriorities sus) := by
  rw [computePriorities]
  exact foldl_inv (fun st su h => prioStep_ScanInv st su h) _ _ (by rw [ScanInv]; decide)

/-- A scan step over a unit matching at most one category predicate agrees
with the spec-side step. -/
theorem prioStep_eq_specStep (st : PrioState) (su : SUnit) (hx : ExclusiveCats su) :
    prioStep st su = specStep st su := by
  obtain ⟨h1, h2, h3, h4⟩ := hx
  by_cases hr : isDSRead su = true
  · have hw : isDSWrite su = false := by
      cases hw : isDSWrite su
      · rfl
      · exact absurd ⟨hr, hw⟩ h1
    have hv : isVMEMLoad su = false := by
      cases hv : isVMEMLoad su
      · rfl
      · exact absurd ⟨hr, hv⟩ h2
    simp [prioStep, specStep, category, hr, hw, hv]
  · rw [Bool.not_eq_true] at hr
    by_cases hw : isDSWrite su = true
    · have hv : isVMEMLoad su = false := by
        cases hv : isVMEMLoad su
        · rfl
        · exact absurd ⟨hw, hv⟩ h3
      simp [prioStep, specStep, category, hr, hw, hv]
    · rw [Bool.not_eq_true] at hw
      by_cases hm : isMFMA su = true
      · have hv : isVMEMLoad su = false := by
          cases hv : isVMEMLoad su
          · rfl
          · exact absurd ⟨hm, hv⟩ h4
        simp [prioStep, specStep, category, hr, hw, hm, hv]
      · rw [Bool.not_eq_true] at hm
        by_cases hv : isVMEMLoad su = true
        · simp [prioStep, specStep, category, hr, hw, hm, hv]
        · rw [Bool.not_eq_true] at hv
          by_cases hs : isVMEMStore su = true
          · simp [prioStep, specStep, category, hr, hw, hm, hv, hs]
          · rw [Bool.not_eq_true] at hs
            simp [prioStep, specStep, category, hr, hw, hm, hv, hs]

/-- Fold congruence over a pointwise-equal step function. -/
theorem foldl_congr_on {α β : Type} {f g : β → α → β} :
    ∀ (l : List α) (b : β), (∀ a ∈ l, ∀ x : β, f x a = g x a) →
      l.foldl f b = l.foldl g b := by
  intro l
  induction l with
  | nil => intro b _; rfl
  | cons a l ih =>
    intro b h
    rw [List.foldl_cons, List.foldl_cons, h a (by simp)]
    exact ih _ (fun a' ha' x => h a' (by simp [ha']) x)

/-- The spec-side step touches the local-read priority only on local-read
units. -/
theorem specStep_dsread_const (st : PrioState) (su : SUnit)
    (h : category su ≠ Category.DSRead) :
    (specStep st su).DSReadPriority = st.DSReadPriority := by
  cases hc : category su with
  | DSRead => exact absurd hc h
  | DSWrite => rw [specStep, hc]; simp; split <;> rfl
  | VMEMLoad => rw [specStep, hc]; simp; split <;> rfl
  | MFMA => rw [specStep, hc]; simp
  | VMEMStore => rw [specStep, hc]; simp
  | Other => rw [specStep, hc]; simp

/-- The spec-side step touches the local-write priority only on local-write
units. -/
theorem specStep_dswrite_const (st : PrioState) (su : SUnit)
    (h : category su ≠ Category.DSWrite) :
    (specStep st su).DSWritePriority = st.DSWritePriority := by
  cases hc : category su with
  | DSWrite => exact absurd hc h
  | DSRead => rw [specStep, hc]; simp; split <;> rfl
  | VMEMLoad => rw [specStep, hc]; simp; split <;> rfl
  | MFMA => rw [specStep, hc]; simp
  | VMEMStore => rw [specStep, hc]; simp
  | Other => rw [specStep, hc]; simp

/-- The spec-side step touches the vector-load priority only on vector-load
units. -/
theorem specStep_vmemload_const (st : PrioState) (su : SUnit)
    (h : category su ≠ Category.VMEMLoad) :
    (specStep st su).VMEMLoadPriority = st.VMEMLoadPriority := by
  cases hc : category su with
  | VMEMLoad => exact absurd hc h
  | DSRead => rw [specStep, hc]; simp; split <;> rfl
  | DSWrite => rw [specStep, hc]; simp; split <;> rfl
  | MFMA => rw [specStep, hc]; simp
  | VMEMStore => rw [specStep, hc]; simp
  | Other => rw [specStep, hc]; simp

/-- Folding the spec-side step over units of other categories leaves the
local-read priority unchanged. -/
theorem spec_fold_dsread_const : ∀ (l : List SUnit) (st : PrioState),
    (∀ su ∈ l, category su ≠ Category.DSRead) →
    (l.foldl specStep st).DSReadPriority = st.DSReadPriority := by
  intro l
  induction l with
  | nil => intro st _; rfl
  | cons a l ih =>
    intro st h
    rw [List.foldl_cons, ih _ (fun su hsu => h su (by simp [hsu])),
      specStep_dsread_const st a (h a (by simp))]

/-- Folding the spec-side step over units of other categories leaves the
local-write priority unchanged. -/
theorem spec_fold_dswrite_const : ∀ (l : List SUnit) (st : PrioState),
    (∀ su ∈ l, category su ≠ Category.DSWrite) →
    (l.foldl specStep st).DSWritePriority = st.DSWritePriority := by
  intro l
  induction l with
  | nil => intro st _; rfl
  | cons a l ih =>
    intro st h
    rw [List.foldl_cons, ih _ (fun su hsu => h su (by simp [hsu])),
      specStep_dswrite_const st a (h a (by simp))]

/-- Folding the spec-side step over units of other categories leaves the
vector-load priority unchanged. -/
theorem spec_fold_vmemload_const : ∀ (l : List SUnit) (st : PrioState),
    (∀ su ∈ l, category su ≠ Category.VMEMLoad) →
    (l.foldl specStep st).VMEMLoadPriority = st.VMEMLoadPriority := by
  intro l
  induction l with
  | nil => intro st _; rfl
  | cons a l ih =>
    intro st h
    rw [List.foldl_cons, ih _ (fun su hsu => h su (by simp [hsu])),
      specStep_vmemload_const st a (h a (by simp))]

/-- C3 (amended): the backward scan visits units in decreasing
sequence-number order and assigns, at each unit, the first unassigned
branch among local read, local write and vector load whose raw predicate
the unit satisfies; the compute category has no priority variable at all.
Provided every unit satisfies at most one of the scanned predicates — the
else-if cascade otherwise lets a unit of one category assign another
category's priority, as DS atomics do — this coincides with the claim's
first-encounter-per-category rule: the first unit of category C assigns C
the count of categories already assigned, then increments the counter,
and a category with no member in the region keeps the unassigned value
`-1`. -/
theorem interleave_priority_scan (sus : List SUnit)
    (hx : ∀ su ∈ sus, ExclusiveCats su) :
    computePriorities sus = specPriorityScan sus ∧
    ((∀ su ∈ sus, category su ≠ Category.DSRead) →
      (computePriorities sus).DSReadPriority = -1) ∧
    ((∀ su ∈ sus, category su ≠ Category.DSWrite) →
      (computePriorities sus).DSWritePriority = -1) ∧
    ((∀ su ∈ sus, category su ≠ Category.VMEMLoad) →
      (computePriorities sus).VMEMLoadPriority = -1) := by
  have heq : computePriorities sus = specPriorityScan sus := by
    rw [computePriorities, specPriorityScan]
    exact foldl_congr_on _ _
      (fun a ha x => prioStep_eq_specStep x a (hx a (by simpa using ha)))
  refine ⟨heq, ?_, ?_, ?_⟩ <;> intro h <;> rw [heq, specPriorityScan]
  · exact spec_fold_dsread_const _ _ (fun su hsu => h su (by simpa using hsu))
  · exact spec_fold_dswrite_const _ _ (fun su hsu => h su (by simpa using hsu))
  · exact spec_fold_vmemload_const _ _ (fun su hsu => h su (by simpa using hsu))

/-- Witness for C3 at the spec's example region: the scans agree, and the
memberless local-read category keeps `-1`. -/
theorem interleave_priority_scan_witness :
    computePriorities exDagMatched.SUnits = specPriorityScan exDagMatched.SUnits ∧
    (computePriorities exDagMatched.SUnits).DSReadPriority = -1 :=
  ⟨(interleave_priority_scan exDagMatched.SUnits (by decide)).1,
   (interleave_priority_scan exDagMatched.SUnits (by decide)).2.1 (by decide)⟩

/-- Counterexample to C3 as stated: in the matched region `exDagAtomic`,
whose two LDS atomics both classify as local reads, no unit has the
local-write category and the local-write category list is empty, yet the
backward scan assigns the local-write priority the value 1 — a zero-member
category receives a priority, and not at a first encounter of one of its
own units. -/
theorem interleave_priority_scan_counterexample :
    identifyGEMMHotLoop exDagAtomic = some true ∧
    (∀ su ∈ exDagAtomic.SUnits, category su ≠ Category.DSWrite) ∧
    (classifySUnits exDagAtomic.SUnits).DSWrites = [] ∧
    (computePriorities exDagAtomic.SUnits).DSWritePriority = 1 := by
  decide

/-! ### The pairing phase as chunked consumption of the MFMA stack -/

/-- The inner pairing loop zips the MFMA stack against the category stack
and drops the consumed MFMA prefix. -/
theorem pairLoop_zip : ∀ cs ms : List SUnit,
    pairLoop cs ms = (ms.zip cs, ms.drop cs.length) := by
  intro cs
  induction cs with
  | nil => intro ms; cases ms <;> simp [pairLoop]
  | cons c cs ih =>
    intro ms
    cases ms with
    | nil => simp [pairLoop]
    | cons m ms => simp [pairLoop, ih ms]

/-- The first components of a zip are the consumed prefix. -/
theorem zip_map_fst : ∀ ms cs : List SUnit,
    (ms.zip cs).map Prod.fst = ms.take cs.length := by
  intro ms
  induction ms with
  | nil => intro cs; simp
  | cons m ms ih =>
    intro cs
    cases cs with
    | nil => simp
    | cons c cs => simp [ih cs]

/-- The second components of a zip are a prefix of the second list. -/
theorem zip_map_snd : ∀ ms cs : List SUnit,
    (ms.zip cs).map Prod.snd = cs.take ms.length := by
  intro ms
  induction ms with
  | nil => intro cs; simp
  | cons m ms ih =>
    intro cs
    cases cs with
    | nil => simp
    | cons c cs => simp [ih cs]

/-- The rank loop is chunked consumption: fold of the per-rank pairing
equals `chunked` over the per-rank category stacks. -/
theorem pairing_fold_chunked (cl : Classified) (pr : PrioState) :
    ∀ (rs : List Nat) (P : List (SUnit × SUnit)) (ms : List SUnit),
      (rs.foldl
        (fun acc r =>
          let step := pairLoop (rankCat cl pr r).reverse acc.2
          (acc.1 ++ step.1, step.2))
        (P, ms)).1
      = P ++ chunked (rs.map (fun r => (rankCat cl pr r).reverse)) ms := by
  intro rs
  induction rs with
  | nil => intro P ms; simp [chunked]
  | cons r rs ih =>
    intro P ms
    rw [List.foldl_cons]
    dsimp only
    rw [pairLoop_zip, ih, List.map_cons, chunked, List.append_assoc]

/-- The pairing phase in closed form. -/
theorem pairingPhase_eq_chunked (cl : Classified) (pr : PrioState) :
    pairingPhase cl pr =
      chunked ((List.range pr.CurrentPriority.toNat).map
        (fun r => (rankCat cl pr r).reverse)) cl.MFMAs.reverse := by
  rw [pairingPhase, pairing_fold_chunked]
  simp

/-- Chunked consumption takes a prefix of the shared stack as its first
components. -/
theorem chunked_map_fst : ∀ (Ls : List (List SUnit)) (ms : List SUnit),
    ∃ n, (chunked Ls ms).map Prod.fst = ms.take n := by
  intro Ls
  induction Ls with
  | nil => intro ms; exact ⟨0, by simp [chunked]⟩
  | cons cs rest ih =>
    intro ms
    obtain ⟨n, hn⟩ := ih (ms.drop cs.length)
    refine ⟨cs.length + n, ?_⟩
    rw [chunked, List.map_append, zip_map_fst, hn, List.take_add]

/-- The length of chunked consumption is the minimum of the total chunk
budget and the stack length. -/
theorem chunked_length : ∀ (Ls : List (List SUnit)) (ms : List SUnit),
    (chunked Ls ms).length = min ((Ls.map List.length).sum) ms.length := by
  intro Ls
  induction Ls with
  | nil => intro ms; simp [chunked]
  | cons cs rest ih =>
    intro ms
    rw [chunked, List.length_append, ih (ms.drop cs.length)]
    rw [List.length_zip, List.length_drop]
    simp only [List.map_cons, List.sum_cons]
    omega

/-! ### No memory unit is paired twice (C4 machinery) -/

/-- In a region with strictly increasing sequence numbers, the sequence
number determines the unit. -/
theorem nodeNum_inj (sus : List SUnit)
    (h : List.Pairwise (fun a b => a.nodeNum < b.nodeNum) sus) :
    ∀ x ∈ sus, ∀ y ∈ sus, x.nodeNum = y.nodeNum → x = y := by
  induction h with
  | nil => intro x hx; simp at hx
  | @cons a l hhead htail ih =>
    intro x hx y hy hnn
    rcases List.mem_cons.mp hx with rfl | hx' <;>
      rcases List.mem_cons.mp hy with rfl | hy'
    · rfl
    · exact absurd hnn (by have := hhead y hy'; omega)
    · exact absurd hnn (by have := hhead x hx'; omega)
    · exact ih x hx' y hy' hnn

/-- The second components of chunked consumption come from the chunks. -/
theorem chunked_snd_subset : ∀ (Ls : List (List SUnit)) (ms : List SUnit)
    (p : SUnit × SUnit), p ∈ chunked Ls ms → p.2 ∈ Ls.flatten := by
  intro Ls
  induction Ls with
  | nil => intro ms p hp; simp [chunked] at hp
  | cons cs rest ih =>
    intro ms p hp
    rw [chunked] at hp
    rcases List.mem_append.mp hp with hp | hp
    · have : p.2 ∈ (ms.zip cs).map Prod.snd := List.mem_map_of_mem _ hp
      rw [zip_map_snd] at this
      exact List.mem_flatten.mpr ⟨cs, by simp, List.mem_of_mem_take this⟩
    · have := ih (ms.drop cs.length) p hp
      rw [List.flatten_cons]
      exact List.mem_append.mpr (Or.inr this)

/-- If the chunks jointly carry no duplicate sequence numbers, neither do
the second components of chunked consumption. -/
theorem chunked_snd_nodup : ∀ (Ls : List (List SUnit)) (ms : List SUnit),
    ((Ls.flatten).map SUnit.nodeNum).Nodup →
    ((chunked Ls ms).map (fun p => p.2.nodeNum)).Nodup := by
  intro Ls
  induction Ls with
  | nil => intro ms _; simp [chunked]
  | cons cs rest ih =>
    intro ms h
    rw [List.flatten_cons, List.map_append, List.nodup_append] at h
    obtain ⟨hcs, hrest, hdisj⟩ := h
    rw [chunked, List.map_append, List.nodup_append]
    refine ⟨?_, ih _ hrest, ?_⟩
    · have hmap : ((ms.zip cs).map (fun p => p.2.nodeNum)) =
          ((ms.zip cs).map Prod.snd).map SUnit.nodeNum := by
        simp [List.map_map, Function.comp]
      rw [hmap, zip_map_snd]
      have : ((cs.take ms.length).map SUnit.nodeNum).Sublist (cs.map SUnit.nodeNum) :=
        (List.take_sublist _ _).map _
      exact hcs.sublist this
    · intro n hn hn'
      have hn1 : n ∈ cs.map SUnit.nodeNum := by
        obtain ⟨p, hp, rfl⟩ := List.mem_map.mp hn
        have : p.2 ∈ (ms.zip cs).map Prod.snd := List.mem_map_of_mem _ hp
        rw [zip_map_snd] at this
        exact List.mem_map_of_mem _ (List.mem_of_mem_take this)
      have hn2 : n ∈ (rest.flatten).map SUnit.nodeNum := by
        obtain ⟨p, hp, rfl⟩ := List.mem_map.mp hn'
        exact List.mem_map_of_mem _ (chunked_snd_subset rest _ p hp)
      exact hdisj hn1 hn2

/-- Two different ranks draw from category stacks with no common sequence
number. -/
theorem rankCat_disjoint (cl : Classified) (pr : PrioState)
    (hVW : ∀ x ∈ cl.VMEMLoads, ∀ y ∈ cl.DSWrites, x.nodeNum ≠ y.nodeNum)
    (hVR : ∀ x ∈ cl.VMEMLoads, ∀ y ∈ cl.DSReads, x.nodeNum ≠ y.nodeNum)
    (hWR : ∀ x ∈ cl.DSWrites, ∀ y ∈ cl.DSReads, x.nodeNum ≠ y.nodeNum)
    (r r' : Nat) (hne : r ≠ r') (x y : SUnit)
    (hx : x ∈ rankCat cl pr r) (hy : y ∈ rankCat cl pr r') :
    x.nodeNum ≠ y.nodeNum := by
  rw [rankCat] at hx hy
  split_ifs at hx hy <;>
    first
      | simp at hx
      | simp at hy
      | omega
      | exact hVW x hx y hy
      | exact fun h => hVW y hy x hx h.symm
      | exact hVR x hx y hy
      | exact fun h => hVR y hy x hx h.symm
      | exact hWR x hx y hy
      | exact fun h => hWR y hy x hx h.symm

/-- Over distinct ranks, the chosen category stacks jointly carry no
duplicate sequence number. -/
theorem rank_join_nodup (cl : Classified) (pr : PrioState)
    (hVW : ∀ x ∈ cl.VMEMLoads, ∀ y ∈ cl.DSWrites, x.nodeNum ≠ y.nodeNum)
    (hVR : ∀ x ∈ cl.VMEMLoads, ∀ y ∈ cl.DSReads, x.nodeNum ≠ y.nodeNum)
    (hWR : ∀ x ∈ cl.DSWrites, ∀ y ∈ cl.DSReads, x.nodeNum ≠ y.nodeNum)
    (hnV : (cl.VMEMLoads.map SUnit.nodeNum).Nodup)
    (hnW : (cl.DSWrites.map SUnit.nodeNum).Nodup)
    (hnR : (cl.DSReads.map SUnit.nodeNum).Nodup) :
    ∀ rs : List Nat, rs.Nodup →
      (((rs.map (fun r => (rankCat cl pr r).reverse)).flatten).map SUnit.nodeNum).Nodup := by
  intro rs
  induction rs with
  | nil => intro _; simp
  | cons r rs ih =>
    intro hnod
    rw [List.map_cons, List.flatten_cons, List.map_append, List.nodup_append]
    have hnr : rs.Nodup := (List.nodup_cons.mp hnod).2
    have hrr : r ∉ rs := (List.nodup_cons.mp hnod).1
    refine ⟨?_, ih hnr, ?_⟩
    · rw [rankCat]
      split_ifs
      · simpa using hnV
      · simpa using hnW
      · simpa using hnR
      · simp
    · intro n hn hn'
      obtain ⟨x, hx, rfl⟩ := List.mem_map.mp hn
      rw [List.mem_reverse] at hx
      obtain ⟨y, hy, hxy⟩ := List.mem_map.mp hn'
      obtain ⟨L, hL, hyL⟩ := List.mem_flatten.mp hy
      obtain ⟨r', hr', rfl⟩ := List.mem_map.mp hL
      rw [List.mem_reverse] at hyL
      exact rankCat_disjoint cl pr hVW hVR hWR r r'
        (by rintro rfl; exact hrr hr') x y hx hyL hxy.symm

/-- C4: on a region with strictly increasing sequence numbers, the pairing
phase consumes the compute (MFMA) units in strictly decreasing
sequence-number order across the whole phase — leftover compute units carry
over from rank to rank — and pairs each memory unit with at most one
compute unit. -/
theorem interleave_pairing_order (sus : List SUnit)
    (hsorted : List.Pairwise (fun a b => a.nodeNum < b.nodeNum) sus) :
    List.Pairwise (fun p q => q.nodeNum < p.nodeNum)
      ((pairingPhase (classifySUnits sus) (computePriorities sus)).map Prod.fst) ∧
    ((pairingPhase (classifySUnits sus) (computePriorities sus)).map
      (fun p => p.2.nodeNum)).Nodup := by
  have hcl := classifySUnits_eq sus
  have hsubV : ((classifySUnits sus).VMEMLoads).Sublist sus := by
    rw [hcl]; exact List.filter_sublist sus
  have hsubW : ((classifySUnits sus).DSWrites).Sublist sus := by
    rw [hcl]; exact List.filter_sublist sus
  have hsubR : ((classifySUnits sus).DSReads).Sublist sus := by
    rw [hcl]; exact List.filter_sublist sus
  have hsubM : ((classifySUnits sus).MFMAs).Sublist sus := by
    rw [hcl]; exact List.filter_sublist sus
  have hnodup : ∀ L : List SUnit, L.Sublist sus → (L.map SUnit.nodeNum).Nodup := by
    intro L hL
    have : List.Pairwise (fun a b => a.nodeNum < b.nodeNum) L :=
      List.Pairwise.sublist hL hsorted
    exact ((List.pairwise_map).mpr this).imp Nat.ne_of_lt
  have hVW : ∀ x ∈ (classifySUnits sus).VMEMLoads,
      ∀ y ∈ (classifySUnits sus).DSWrites, x.nodeNum ≠ y.nodeNum := by
    rw [hcl]
    intro x hx y hy hnn
    rw [List.mem_filter] at hx hy
    obtain rfl := nodeNum_inj sus hsorted x hx.1 y hy.1 hnn
    have h1 : isDSWrite x = false := by
      have := hx.2
      simp only [Bool.and_eq_true, Bool.not_eq_true'] at this
      tauto
    have h2 : isDSWrite x = true := by
      have := hy.2
      simp only [Bool.and_eq_true, Bool.not_eq_true'] at this
      tauto
    exact absurd (h1.symm.trans h2) Bool.false_ne_true
  have hVR : ∀ x ∈ (classifySUnits sus).VMEMLoads,
      ∀ y ∈ (classifySUnits sus).DSReads, x.nodeNum ≠ y.nodeNum := by
    rw [hcl]
    intro x hx y hy hnn
    rw [List.mem_filter] at hx hy
    obtain rfl := nodeNum_inj sus hsorted x hx.1 y hy.1 hnn
    have h1 : isDSRead x = false := by
      have := hx.2
      simp only [Bool.and_eq_true, Bool.not_eq_true'] at this
      tauto
    have h2 : isDSRead x = true := by
      have := hy.2
      simp only [Bool.and_eq_true, Bool.not_eq_true'] at this
      tauto
    exact absurd (h1.symm.trans h2) Bool.false_ne_true
  have hWR : ∀ x ∈ (classifySUnits sus).DSWrites,
      ∀ y ∈ (classifySUnits sus).DSReads, x.nodeNum ≠ y.nodeNum := by
    rw [hcl]
    intro x hx y hy hnn
    rw [List.mem_filter] at hx hy
    obtain rfl := nodeNum_inj sus hsorted x hx.1 y hy.1 hnn
    have h1 : isDSRead x = false := by
      have := hx.2
      simp only [Bool.and_eq_true, Bool.not_eq_true'] at this
      tauto
    have h2 : isDSRead x = true := by
      have := hy.2
      simp only [Bool.and_eq_true, Bool.not_eq_true'] at this
      tauto
    exact absurd (h1.symm.trans h2) Bool.false_ne_true
  constructor
  · obtain ⟨n, hfst⟩ := chunked_map_fst
      ((List.range (computePriorities sus).CurrentPriority.toNat).map
        (fun r => (rankCat (classifySUnits sus) (computePriorities sus) r).reverse))
      (classifySUnits sus).MFMAs.reverse
    rw [pairingPhase_eq_chunked, hfst]
    have hMFs : List.Pairwise (fun a b => a.nodeNum < b.nodeNum)
        (classifySUnits sus).MFMAs := List.Pairwise.sublist hsubM hsorted
    have hrev : List.Pairwise (fun a b => b.nodeNum < a.nodeNum)
        (classifySUnits sus).MFMAs.reverse := List.pairwise_reverse.mpr hMFs
    exact List.Pairwise.sublist (List.take_sublist _ _) hrev
  · rw [pairingPhase_eq_chunked]
    exact chunked_snd_nodup _ _
      (rank_join_nodup _ _ hVW hVR hWR (hnodup _ hsubV) (hnodup _ hsubW)
        (hnodup _ hsubR) _ (List.nodup_range _))

/-- Witness for C4 at the spec's example region. -/
theorem interleave_pairing_order_witness :
    List.Pairwise (fun p q => q.nodeNum < p.nodeNum)
      ((pairingPhase (classifySUnits exDagMatched.SUnits)
        (computePriorities exDagMatched.SUnits)).map Prod.fst) ∧
    ((pairingPhase (classifySUnits exDagMatched.SUnits)
        (computePriorities exDagMatched.SUnits)).map
      (fun p => p.2.nodeNum)).Nodup :=
  interleave_pairing_order exDagMatched.SUnits (by decide)

/-! ### C5 — total number of inserted edges -/

/-- Summing the per-rank category-stack sizes over all ranks counts each
priority's category once, with the else-if shadowing made explicit. -/
theorem range_sum_rankCat (cl : Classified) (pr : PrioState) (n : Nat) :
    (((List.range n).map (fun r => (rankCat cl pr r).length)).sum) =
      (if 0 ≤ pr.VMEMLoadPriority ∧ pr.VMEMLoadPriority < (n : Int) then
        cl.VMEMLoads.length else 0) +
      (if 0 ≤ pr.DSWritePriority ∧ pr.DSWritePriority < (n : Int) ∧
          pr.DSWritePriority ≠ pr.VMEMLoadPriority then
        cl.DSWrites.length else 0) +
      (if 0 ≤ pr.DSReadPriority ∧ pr.DSReadPriority < (n : Int) ∧
          pr.DSReadPriority ≠ pr.VMEMLoadPriority ∧
          pr.DSReadPriority ≠ pr.DSWritePriority then
        cl.DSReads.length else 0) := by
  induction n with
  | zero =>
    simp only [List.range_zero, List.map_nil, List.sum_nil, Nat.cast_zero]
    split_ifs <;> omega
  | succ n ih =>
    rw [List.range_succ, List.map_append, List.sum_append, ih]
    simp only [List.map_cons, List.map_nil, List.sum_cons, List.sum_nil,
      Nat.add_zero]
    rw [rankCat]
    split_ifs <;> (try simp only [List.length_nil]) <;> omega

/-- C5: on a matched region with no vector-memory store, the number of
Artificial edges the pass inserts equals the minimum of the total number
of memory units in categories that received a priority and the number of
MFMA units. -/
theorem interleave_edge_count (dag : DAG) (d' : DAG)
    (hm : identifyGEMMHotLoop dag = some true)
    (hs : (classifySUnits dag.SUnits).VMEMStores = [])
    (hdone : CustomInterleaving.apply dag = ApplyResult.done d') :
    d'.edges.length = dag.edges.length +
      min ((if 0 ≤ (computePriorities dag.SUnits).DSReadPriority
            then (classifySUnits dag.SUnits).DSReads.length else 0) +
           (if 0 ≤ (computePriorities dag.SUnits).DSWritePriority
            then (classifySUnits dag.SUnits).DSWrites.length else 0) +
           (if 0 ≤ (computePriorities dag.SUnits).VMEMLoadPriority
            then (classifySUnits dag.SUnits).VMEMLoads.length else 0))
          (classifySUnits dag.SUnits).MFMAs.length := by
  rw [CustomInterleaving.apply.eq_def, hm] at hdone
  have hc : ((classifySUnits dag.SUnits).VMEMStores.length != 0) = false := by
    simp [hs]
  simp only [hc, Bool.false_eq_true, if_false, ApplyResult.done.injEq] at hdone
  obtain rfl := hdone.symm
  simp only [List.length_append, List.length_map]
  congr 1
  rw [pairingPhase_eq_chunked, chunked_length]
  have hmaps : ((((List.range (computePriorities dag.SUnits).CurrentPriority.toNat).map
      (fun r => (rankCat (classifySUnits dag.SUnits) (computePriorities dag.SUnits) r).reverse)).map
        List.length).sum) =
      (((List.range (computePriorities dag.SUnits).CurrentPriority.toNat).map
        (fun r => (rankCat (classifySUnits dag.SUnits) (computePriorities dag.SUnits) r).length)).sum) := by
    rw [List.map_map]
    congr 1
    apply List.map_congr_left
    intro r _
    simp
  rw [hmaps, range_sum_rankCat, List.length_reverse]
  have hinv := computePriorities_ScanInv dag.SUnits
  rw [ScanInv] at hinv
  have hcast : ((computePriorities dag.SUnits).CurrentPriority.toNat : Int) =
      (computePriorities dag.SUnits).CurrentPriority := by omega
  rw [hcast]
  congr 1
  split_ifs <;> omega

/-- Witness for C5 at the spec's example region: 2 vector loads, 1 LDS
write and 3 MFMAs yield exactly 3 Artificial edges. -/
theorem interleave_edge_count_witness :
    ∃ d' : DAG, CustomInterleaving.apply exDagMatched = ApplyResult.done d' ∧
      d'.edges.length = exDagMatched.edges.length + 3 := by
  refine ⟨⟨exDagMatched.SUnits, exDagMatched.exitInstr,
    [⟨3, 6, DepKind.Artificial⟩, ⟨2, 5, DepKind.Artificial⟩,
     ⟨1, 4, DepKind.Artificial⟩]⟩, by decide, ?_⟩
  have h := interleave_edge_count exDagMatched
    ⟨exDagMatched.SUnits, exDagMatched.exitInstr,
      [⟨3, 6, DepKind.Artificial⟩, ⟨2, 5, DepKind.Artificial⟩,
       ⟨1, 4, DepKind.Artificial⟩]⟩
    (by decide) (by decide) (by decide)
  exact h.trans (by decide)
